import Mathlib

/-!
Verification of the retrieval + verification pipeline of
`examples/How_to_combine_GPT4o_with_RAG_Outfit_Assistant.ipynb`.

Modelling conventions:
* Vector entries, thresholds and tokens are exact rationals (every IEEE float
  value is rational); rounding is ignored, as the spec does.
* A cosine-similarity value `dot / (‖v1‖ * ‖v2‖)` is represented exactly by the
  structure `Score`, recording the numerator `dot` and the square
  `‖v1‖² * ‖v2‖²` of the denominator.  Its real value is
  `Score.toReal = num / √denSq`.  When the denominator is zero the float
  division `0/0` yields NaN; `Score.isNaN` captures exactly that case, and the
  float comparisons on scores (`scoreGE`, `scoreLT`) are false on NaN, as IEEE
  comparisons are.  The comparison functions are computable and are proved to
  agree with the ordering of the represented real values.
* External model calls (embedding service, vision model) are oracle parameters.
-/

namespace OutfitRag

/-- Embeds `np.dot(vec1, vec2)` for equal-length vectors (read from
`cosine_similarity_manual`). -/
def dotProduct (vec1 vec2 : List ℚ) : ℚ :=
  (List.zipWith (fun x y => x * y) vec1 vec2).sum

/-- The square of `np.linalg.norm(v)`: the sum of the squares of the entries.
`np.linalg.norm v = √(normSq v)`, so `v` has zero L2 norm iff `normSq v = 0`. -/
def normSq (v : List ℚ) : ℚ :=
  (v.map (fun x => x * x)).sum

/-- Exact representation of a float similarity value
`num / √denSq` as computed by `cosine_similarity_manual`:
`num` is the dot product and `denSq = normSq vec1 * normSq vec2` is the square
of `norm_vec1 * norm_vec2`. -/
structure Score where
  num : ℚ
  denSq : ℚ
  deriving DecidableEq

instance : Inhabited Score := ⟨⟨0, 0⟩⟩

/-- The real value represented by a score.  Meaningful when `0 < denSq`; when
`denSq = 0` the float computation yields NaN instead (see `Score.isNaN`). -/
noncomputable def Score.toReal (s : Score) : ℝ :=
  (s.num : ℝ) / Real.sqrt (s.denSq : ℝ)

/-- Whether the float division producing this score returns NaN: the
denominator `norm_vec1 * norm_vec2` is zero (then the dot product is zero as
well, and `0.0 / 0.0` is NaN). -/
def Score.isNaN (s : Score) : Bool :=
  s.denSq == 0

/-- Embeds `cosine_similarity_manual(vec1, vec2)`:
`np.dot(vec1, vec2) / (np.linalg.norm vec1 * np.linalg.norm vec2)`, recorded
exactly (for nonnegative `a`, `b` one has `√a * √b = √(a*b)`).  There is no
guard against zero-norm inputs in the source. -/
def cosine_similarity_manual (vec1 vec2 : List ℚ) : Score :=
  ⟨dotProduct vec1 vec2, normSq vec1 * normSq vec2⟩

/-- The float comparison `s >= t` for a score `s` and rational threshold `t`.
False when `s` is NaN (IEEE semantics); otherwise decided exactly by sign
analysis and squaring, since for `d > 0` and `0 ≤ x`:
`t ≤ num/√d ↔ t*√d ≤ num`. -/
def scoreGE (s : Score) (t : ℚ) : Bool :=
  if s.denSq = 0 then false
  else if 0 ≤ s.num then decide (t ≤ 0) || decide (t ^ 2 * s.denSq ≤ s.num ^ 2)
  else decide (t < 0) && decide (s.num ^ 2 ≤ t ^ 2 * s.denSq)

/-- The float comparison `a < b` on scores (the comparison used by the sort on
similarity values).  False when either side is NaN. -/
def scoreLT (a b : Score) : Bool :=
  if a.denSq = 0 ∨ b.denSq = 0 then false
  else if a.num < 0 ∧ 0 ≤ b.num then true
  else if 0 ≤ a.num ∧ 0 ≤ b.num then decide (a.num ^ 2 * b.denSq < b.num ^ 2 * a.denSq)
  else if a.num < 0 ∧ b.num < 0 then decide (b.num ^ 2 * a.denSq < a.num ^ 2 * b.denSq)
  else false

theorem normSq_nonneg (v : List ℚ) : 0 ≤ normSq v := by
  induction v with
  | nil => simp [normSq]
  | cons a l ih =>
      have : normSq (a :: l) = a * a + normSq l := by simp [normSq]
      rw [this]
      exact add_nonneg (mul_self_nonneg a) ih

/-- A score produced by `cosine_similarity_manual` always has a nonnegative
squared denominator. -/
theorem cosine_denSq_nonneg (v1 v2 : List ℚ) :
    0 ≤ (cosine_similarity_manual v1 v2).denSq :=
  mul_nonneg (normSq_nonneg v1) (normSq_nonneg v2)

/-- Squaring bridge, `≤` with the square root on the left. -/
theorem sqrt_cross_le {x y d : ℝ} (hd : 0 ≤ d) (hx : 0 ≤ x) (hy : 0 ≤ y) :
    x * Real.sqrt d ≤ y ↔ x ^ 2 * d ≤ y ^ 2 := by
  constructor
  · intro h
    have h0 : 0 ≤ x * Real.sqrt d := mul_nonneg hx (Real.sqrt_nonneg d)
    have hsq := mul_self_le_mul_self h0 h
    calc x ^ 2 * d = (x * Real.sqrt d) * (x * Real.sqrt d) := by
          rw [mul_mul_mul_comm, Real.mul_self_sqrt hd]; ring
      _ ≤ y * y := hsq
      _ = y ^ 2 := by ring
  · intro h
    have h1 : Real.sqrt (x ^ 2 * d) ≤ Real.sqrt (y ^ 2) := Real.sqrt_le_sqrt h
    rwa [Real.sqrt_mul (sq_nonneg x) d, Real.sqrt_sq hx, Real.sqrt_sq hy] at h1

/-- Squaring bridge, `≤` with the square root on the right. -/
theorem le_sqrt_cross {x y d : ℝ} (hd : 0 ≤ d) (hx : 0 ≤ x) (hy : 0 ≤ y) :
    y ≤ x * Real.sqrt d ↔ y ^ 2 ≤ x ^ 2 * d := by
  constructor
  · intro h
    have hsq := mul_self_le_mul_self hy h
    calc y ^ 2 = y * y := by ring
      _ ≤ (x * Real.sqrt d) * (x * Real.sqrt d) := hsq
      _ = x ^ 2 * d := by rw [mul_mul_mul_comm, Real.mul_self_sqrt hd]; ring
  · intro h
    have h1 : Real.sqrt (y ^ 2) ≤ Real.sqrt (x ^ 2 * d) := Real.sqrt_le_sqrt h
    rwa [Real.sqrt_mul (sq_nonneg x) d, Real.sqrt_sq hx, Real.sqrt_sq hy] at h1

/-- Squaring bridge, strict inequality between two square-root products. -/
theorem sqrt_cross_lt {x y d e : ℝ} (hd : 0 ≤ d) (he : 0 ≤ e) (hx : 0 ≤ x) (hy : 0 ≤ y) :
    x * Real.sqrt d < y * Real.sqrt e ↔ x ^ 2 * d < y ^ 2 * e := by
  constructor
  · intro h
    have h0 : 0 ≤ x * Real.sqrt d := mul_nonneg hx (Real.sqrt_nonneg d)
    have hsq := mul_self_lt_mul_self h0 h
    calc x ^ 2 * d = (x * Real.sqrt d) * (x * Real.sqrt d) := by
          rw [mul_mul_mul_comm, Real.mul_self_sqrt hd]; ring
      _ < (y * Real.sqrt e) * (y * Real.sqrt e) := hsq
      _ = y ^ 2 * e := by rw [mul_mul_mul_comm, Real.mul_self_sqrt he]; ring
  · intro h
    have h1 : Real.sqrt (x ^ 2 * d) < Real.sqrt (y ^ 2 * e) :=
      Real.sqrt_lt_sqrt (mul_nonneg (sq_nonneg x) hd) h
    rwa [Real.sqrt_mul (sq_nonneg x) d, Real.sqrt_mul (sq_nonneg y) e,
      Real.sqrt_sq hx, Real.sqrt_sq hy] at h1

/-- The computable comparison `scoreGE` agrees with the real-valued semantics:
for a score with positive squared denominator, `scoreGE s t` is exactly the
float comparison `t ≤ s.toReal`. -/
theorem scoreGE_iff (s : Score) (t : ℚ) (hd : 0 < s.denSq) :
    scoreGE s t = true ↔ (t : ℝ) ≤ s.toReal := by
  have hdR : (0 : ℝ) < (s.denSq : ℝ) := by exact_mod_cast hd
  have hr : 0 < Real.sqrt (s.denSq : ℝ) := Real.sqrt_pos.mpr hdR
  rw [Score.toReal, le_div_iff hr]
  rw [scoreGE, if_neg hd.ne']
  by_cases hn : 0 ≤ s.num
  · rw [if_pos hn]
    have hnR : (0 : ℝ) ≤ (s.num : ℝ) := by exact_mod_cast hn
    simp only [Bool.or_eq_true, decide_eq_true_eq]
    constructor
    · rintro (ht | hsq)
      · have htR : (t : ℝ) ≤ 0 := by exact_mod_cast ht
        calc (t : ℝ) * Real.sqrt (s.denSq : ℝ) ≤ 0 :=
              mul_nonpos_iff.mpr (Or.inr ⟨htR, (Real.sqrt_nonneg _)⟩)
          _ ≤ (s.num : ℝ) := hnR
      · by_cases ht : t ≤ 0
        · have htR : (t : ℝ) ≤ 0 := by exact_mod_cast ht
          calc (t : ℝ) * Real.sqrt (s.denSq : ℝ) ≤ 0 :=
                mul_nonpos_iff.mpr (Or.inr ⟨htR, (Real.sqrt_nonneg _)⟩)
            _ ≤ (s.num : ℝ) := hnR
        · have htR : (0 : ℝ) ≤ (t : ℝ) := by
            have : (0 : ℚ) ≤ t := le_of_lt (lt_of_not_le ht)
            exact_mod_cast this
          have hsqR : (t : ℝ) ^ 2 * (s.denSq : ℝ) ≤ (s.num : ℝ) ^ 2 := by exact_mod_cast hsq
          exact (sqrt_cross_le hdR.le htR hnR).mpr hsqR
    · intro h
      by_cases ht : t ≤ 0
      · exact Or.inl (by exact_mod_cast ht)
      · have htR : (0 : ℝ) ≤ (t : ℝ) := by
          have : (0 : ℚ) ≤ t := le_of_lt (lt_of_not_le ht)
          exact_mod_cast this
        refine Or.inr ?_
        have := (sqrt_cross_le hdR.le htR hnR).mp h
        exact_mod_cast this
  · rw [if_neg hn]
    push_neg at hn
    have hnR : (s.num : ℝ) < 0 := by exact_mod_cast hn
    simp only [Bool.and_eq_true, decide_eq_true_eq]
    constructor
    · rintro ⟨ht, hsq⟩
      have htR : (t : ℝ) < 0 := by exact_mod_cast ht
      have hsqR : (s.num : ℝ) ^ 2 ≤ (t : ℝ) ^ 2 * (s.denSq : ℝ) := by exact_mod_cast hsq
      have h1 : (-(s.num : ℝ)) ≤ (-(t : ℝ)) * Real.sqrt (s.denSq : ℝ) := by
        rw [le_sqrt_cross hdR.le (by linarith) (by linarith)]
        calc (-(s.num : ℝ)) ^ 2 = (s.num : ℝ) ^ 2 := by ring
          _ ≤ (t : ℝ) ^ 2 * (s.denSq : ℝ) := hsqR
          _ = (-(t : ℝ)) ^ 2 * (s.denSq : ℝ) := by ring
      linarith
    · intro h
      have htR : (t : ℝ) < 0 := by
        by_contra hc
        push_neg at hc
        have : (0 : ℝ) ≤ (t : ℝ) * Real.sqrt (s.denSq : ℝ) :=
          mul_nonneg hc (Real.sqrt_nonneg _)
        linarith
      refine ⟨by exact_mod_cast htR, ?_⟩
      have h1 : (-(s.num : ℝ)) ≤ (-(t : ℝ)) * Real.sqrt (s.denSq : ℝ) := by linarith
      have h2 := (le_sqrt_cross hdR.le (by linarith) (by linarith)).mp h1
      have h3 : (s.num : ℝ) ^ 2 ≤ (t : ℝ) ^ 2 * (s.denSq : ℝ) := by
        calc (s.num : ℝ) ^ 2 = (-(s.num : ℝ)) ^ 2 := by ring
          _ ≤ (-(t : ℝ)) ^ 2 * (s.denSq : ℝ) := h2
          _ = (t : ℝ) ^ 2 * (s.denSq : ℝ) := by ring
      exact_mod_cast h3

/-- The computable comparison `scoreLT` agrees with the real-valued semantics:
for scores with positive squared denominators, `scoreLT a b` is exactly the
float comparison `a.toReal < b.toReal` used by the sort. -/
theorem scoreLT_iff (a b : Score) (ha : 0 < a.denSq) (hb : 0 < b.denSq) :
    scoreLT a b = true ↔ a.toReal < b.toReal := by
  have haR : (0 : ℝ) < (a.denSq : ℝ) := by exact_mod_cast ha
  have hbR : (0 : ℝ) < (b.denSq : ℝ) := by exact_mod_cast hb
  have hra : 0 < Real.sqrt (a.denSq : ℝ) := Real.sqrt_pos.mpr haR
  have hrb : 0 < Real.sqrt (b.denSq : ℝ) := Real.sqrt_pos.mpr hbR
  rw [Score.toReal, Score.toReal, div_lt_div_iff hra hrb]
  rw [scoreLT, if_neg (by push_neg; exact ⟨ha.ne', hb.ne'⟩)]
  by_cases h1 : a.num < 0 ∧ 0 ≤ b.num
  · rw [if_pos h1]
    have haN : (a.num : ℝ) < 0 := by exact_mod_cast h1.1
    have hbN : (0 : ℝ) ≤ (b.num : ℝ) := by exact_mod_cast h1.2
    refine iff_of_true rfl ?_
    calc (a.num : ℝ) * Real.sqrt (b.denSq : ℝ) < 0 :=
          mul_neg_of_neg_of_pos haN hrb
      _ ≤ (b.num : ℝ) * Real.sqrt (a.denSq : ℝ) := mul_nonneg hbN hra.le
  · rw [if_neg h1]
    by_cases h2 : 0 ≤ a.num ∧ 0 ≤ b.num
    · rw [if_pos h2]
      have haN : (0 : ℝ) ≤ (a.num : ℝ) := by exact_mod_cast h2.1
      have hbN : (0 : ℝ) ≤ (b.num : ℝ) := by exact_mod_cast h2.2
      simp only [decide_eq_true_eq]
      rw [sqrt_cross_lt hbR.le haR.le haN hbN]
      exact ⟨fun h => by exact_mod_cast h, fun h => by exact_mod_cast h⟩
    · rw [if_neg h2]
      by_cases h3 : a.num < 0 ∧ b.num < 0
      · rw [if_pos h3]
        have haN : (a.num : ℝ) < 0 := by exact_mod_cast h3.1
        have hbN : (b.num : ℝ) < 0 := by exact_mod_cast h3.2
        simp only [decide_eq_true_eq]
        have key : (-(b.num : ℝ)) * Real.sqrt (a.denSq : ℝ) <
            (-(a.num : ℝ)) * Real.sqrt (b.denSq : ℝ) ↔
            (-(b.num : ℝ)) ^ 2 * (a.denSq : ℝ) < (-(a.num : ℝ)) ^ 2 * (b.denSq : ℝ) :=
          sqrt_cross_lt haR.le hbR.le (by linarith) (by linarith)
        constructor
        · intro h
          have hc : ((b.num : ℝ)) ^ 2 * (a.denSq : ℝ) < ((a.num : ℝ)) ^ 2 * (b.denSq : ℝ) := by
            exact_mod_cast h
          have hR : (-(b.num : ℝ)) ^ 2 * (a.denSq : ℝ) < (-(a.num : ℝ)) ^ 2 * (b.denSq : ℝ) := by
            calc (-(b.num : ℝ)) ^ 2 * (a.denSq : ℝ) = ((b.num : ℝ)) ^ 2 * (a.denSq : ℝ) := by ring
              _ < ((a.num : ℝ)) ^ 2 * (b.denSq : ℝ) := hc
              _ = (-(a.num : ℝ)) ^ 2 * (b.denSq : ℝ) := by ring
          have := key.mpr hR
          linarith
        · intro h
          have h1' : (-(b.num : ℝ)) * Real.sqrt (a.denSq : ℝ) <
              (-(a.num : ℝ)) * Real.sqrt (b.denSq : ℝ) := by linarith
          have h2' := key.mp h1'
          have hc : ((b.num : ℝ)) ^ 2 * (a.denSq : ℝ) < ((a.num : ℝ)) ^ 2 * (b.denSq : ℝ) := by
            calc ((b.num : ℝ)) ^ 2 * (a.denSq : ℝ) = (-(b.num : ℝ)) ^ 2 * (a.denSq : ℝ) := by ring
              _ < (-(a.num : ℝ)) ^ 2 * (b.denSq : ℝ) := h2'
              _ = ((a.num : ℝ)) ^ 2 * (b.denSq : ℝ) := by ring
          exact_mod_cast hc
      · rw [if_neg h3]
        refine iff_of_false (by simp) (not_lt.mpr ?_)
        push_neg at h1 h2 h3
        have haN : 0 ≤ a.num := by
          by_contra hc
          push_neg at hc
          exact absurd (h3 hc) (not_le.mpr (h1 hc))
        have hbN : b.num < 0 := h2 haN
        have haR' : (0 : ℝ) ≤ (a.num : ℝ) := by exact_mod_cast haN
        have hbR' : (b.num : ℝ) < 0 := by exact_mod_cast hbN
        calc (b.num : ℝ) * Real.sqrt (a.denSq : ℝ) ≤ 0 :=
              (mul_neg_of_neg_of_pos hbR' hra).le
          _ ≤ (a.num : ℝ) * Real.sqrt (b.denSq : ℝ) := mul_nonneg haR' hrb.le

/-- One insertion step of a stable descending insertion sort on
(index, score) pairs: `p` is placed before the first entry it strictly
exceeds is false for, i.e. before the first `q` with `¬ p < q`. -/
def insertDesc (p : ℕ × Score) : List (ℕ × Score) → List (ℕ × Score)
  | [] => [p]
  | q :: rest => if scoreLT p.2 q.2 then q :: insertDesc p rest else p :: q :: rest

/-- Embeds `sorted(l, key=lambda x: x[1], reverse=True)`: Python's sort is stable, and
descending with `reverse=True`; any stable descending sort computes the same
list, here realized as a stable insertion sort using the float comparison
`scoreLT` on the score components. -/
def sortDesc (l : List (ℕ × Score)) : List (ℕ × Score) :=
  l.foldr insertDesc []

/-- Embeds `similarities = [(index, cosine_similarity_manual(input_embedding, vec))
for index, vec in enumerate(embeddings)]`. -/
def similarity_list (input_embedding : List ℚ) (embeddings : List (List ℚ)) :
    List (ℕ × Score) :=
  embeddings.enum.map (fun iv => (iv.1, cosine_similarity_manual input_embedding iv.2))

/-- Embeds `filtered_similarities = [(index, sim) for index, sim in similarities
if sim >= threshold]`, with the float comparison `sim >= threshold` (false on
NaN). -/
def filtered_similarity_list (input_embedding : List ℚ) (embeddings : List (List ℚ))
    (threshold : ℚ) : List (ℕ × Score) :=
  (similarity_list input_embedding embeddings).filter (fun p => scoreGE p.2 threshold)

/-- Embeds `find_similar_items(input_embedding, embeddings, threshold=0.5, top_k=2)`:
sort the filtered similarities by score descending and keep the first `top_k`.
The defaults of the source are `threshold=0.5`, `top_k=2`. -/
def find_similar_items (input_embedding : List ℚ) (embeddings : List (List ℚ))
    (threshold : ℚ) (top_k : ℕ) : List (ℕ × Score) :=
  (sortDesc (filtered_similarity_list input_embedding embeddings threshold)).take top_k

theorem insertDesc_perm (p : ℕ × Score) (l : List (ℕ × Score)) :
    List.Perm (insertDesc p l) (p :: l) := by
  induction l with
  | nil => simp [insertDesc]
  | cons q rest ih =>
      rw [insertDesc]
      by_cases h : scoreLT p.2 q.2 = true
      · rw [if_pos h]
        exact (ih.cons q).trans (List.Perm.swap p q rest)
      · rw [if_neg h]

theorem sortDesc_perm (l : List (ℕ × Score)) : List.Perm (sortDesc l) l := by
  induction l with
  | nil => simp [sortDesc]
  | cons p rest ih =>
      have h1 : sortDesc (p :: rest) = insertDesc p (sortDesc rest) := rfl
      rw [h1]
      exact (insertDesc_perm p (sortDesc rest)).trans (ih.cons p)

/-- The preferred order of the stable descending sort: strictly larger score
first, equal scores in order of ascending original index. -/
def pref (a b : ℕ × Score) : Prop :=
  b.2.toReal < a.2.toReal ∨ (a.2.toReal = b.2.toReal ∧ a.1 < b.1)

theorem mem_insertDesc {x p : ℕ × Score} {l : List (ℕ × Score)}
    (hx : x ∈ insertDesc p l) : x = p ∨ x ∈ l :=
  List.mem_cons.mp ((insertDesc_perm p l).mem_iff.mp hx)

theorem insertDesc_pairwise {p : ℕ × Score} {l : List (ℕ × Score)}
    (hp : 0 < p.2.denSq) (hl : ∀ q ∈ l, 0 < q.2.denSq)
    (hidx : ∀ q ∈ l, p.1 < q.1) (hpl : l.Pairwise pref) :
    (insertDesc p l).Pairwise pref := by
  induction l with
  | nil => simp [insertDesc, List.Pairwise]
  | cons q rest ih =>
      have hq : 0 < q.2.denSq := hl q (by simp)
      rw [insertDesc]
      by_cases h : scoreLT p.2 q.2 = true
      · rw [if_pos h]
        have hlt : p.2.toReal < q.2.toReal := (scoreLT_iff _ _ hp hq).mp h
        rw [List.pairwise_cons] at hpl ⊢
        constructor
        · intro x hx
          rcases mem_insertDesc hx with rfl | hx'
          · exact Or.inl hlt
          · exact hpl.1 x hx'
        · exact ih (fun r hr => hl r (by simp [hr])) (fun r hr => hidx r (by simp [hr])) hpl.2
      · rw [if_neg h]
        have hge : q.2.toReal ≤ p.2.toReal := by
          have := (scoreLT_iff p.2 q.2 hp hq).not.mp (by simpa using h)
          exact not_lt.mp this
        rw [List.pairwise_cons] at hpl
        rw [List.pairwise_cons]
        constructor
        · intro x hx
          rcases List.mem_cons.mp hx with rfl | hx'
          · rcases lt_or_eq_of_le hge with hlt | heq
            · exact Or.inl hlt
            · exact Or.inr ⟨heq.symm, hidx x (by simp)⟩
          · have hxq : x.2.toReal < q.2.toReal ∨ q.2.toReal = x.2.toReal := by
              rcases hpl.1 x hx' with h1 | h1
              · exact Or.inl h1
              · exact Or.inr h1.1
            rcases hxq with h1 | h1
            · exact Or.inl (lt_of_lt_of_le h1 hge)
            · rcases lt_or_eq_of_le hge with hlt | heq
              · exact Or.inl (h1 ▸ hlt)
              · exact Or.inr ⟨by rw [← heq, h1], hidx x (by simp [hx'])⟩
        · exact List.pairwise_cons.mpr ⟨hpl.1, hpl.2⟩

theorem sortDesc_pairwise {l : List (ℕ × Score)}
    (hd : ∀ q ∈ l, 0 < q.2.denSq)
    (hidx : l.Pairwise (fun a b => a.1 < b.1)) :
    (sortDesc l).Pairwise pref := by
  induction l with
  | nil => simp [sortDesc, List.Pairwise]
  | cons p rest ih =>
      have h1 : sortDesc (p :: rest) = insertDesc p (sortDesc rest) := rfl
      rw [h1]
      rw [List.pairwise_cons] at hidx
      refine insertDesc_pairwise (hd p (by simp)) ?_ ?_ (ih (fun r hr => hd r (by simp [hr])) hidx.2)
      · intro q hq
        exact hd q (by simp [(sortDesc_perm rest).mem_iff.mp hq])
      · intro q hq
        exact hidx.1 q ((sortDesc_perm rest).mem_iff.mp hq)

theorem enum_pairwise_fst {α : Type} (l : List α) :
    l.enum.Pairwise (fun a b => a.1 < b.1) := by
  rw [List.pairwise_iff_get]
  intro i j hij
  simp only [List.get_eq_getElem, List.getElem_enum]
  exact hij

theorem similarity_list_pairwise_fst (inp : List ℚ) (emb : List (List ℚ)) :
    (similarity_list inp emb).Pairwise (fun a b => a.1 < b.1) := by
  rw [similarity_list, List.pairwise_map]
  exact enum_pairwise_fst emb

theorem mem_similarity_list {inp : List ℚ} {emb : List (List ℚ)} {p : ℕ × Score}
    (hp : p ∈ similarity_list inp emb) :
    ∃ h : p.1 < emb.length, p.2 = cosine_similarity_manual inp (emb.get ⟨p.1, h⟩) := by
  rw [similarity_list, List.mem_map] at hp
  obtain ⟨iv, hiv, hpeq⟩ := hp
  have h1 : emb[iv.1]? = some iv.2 := List.mem_enum_iff_getElem?.mp hiv
  rw [List.getElem?_eq_some] at h1
  obtain ⟨hlt, hget⟩ := h1
  subst hpeq
  exact ⟨hlt, by rw [List.get_eq_getElem, hget]⟩

theorem scoreGE_denSq_ne_zero {s : Score} {t : ℚ} (h : scoreGE s t = true) :
    s.denSq ≠ 0 := by
  intro heq
  rw [scoreGE, if_pos heq] at h
  exact absurd h (by simp)

/-- Every entry of the filtered similarity list passed the float threshold
test, has a positive squared denominator (hence is not NaN), and records the
cosine similarity of the query with the embedding at its own index. -/
theorem mem_filtered_spec {inp : List ℚ} {emb : List (List ℚ)} {t : ℚ} {p : ℕ × Score}
    (hp : p ∈ filtered_similarity_list inp emb t) :
    scoreGE p.2 t = true ∧ 0 < p.2.denSq ∧
      ∃ h : p.1 < emb.length, p.2 = cosine_similarity_manual inp (emb.get ⟨p.1, h⟩) := by
  rw [filtered_similarity_list, List.mem_filter] at hp
  obtain ⟨hmem, hge⟩ := hp
  obtain ⟨hlt, hcos⟩ := mem_similarity_list hmem
  refine ⟨hge, ?_, hlt, hcos⟩
  have hne : p.2.denSq ≠ 0 := scoreGE_denSq_ne_zero hge
  have hnn : 0 ≤ p.2.denSq := by rw [hcos]; exact cosine_denSq_nonneg _ _
  exact lt_of_le_of_ne hnn (Ne.symm hne)

theorem filtered_pairwise_fst (inp : List ℚ) (emb : List (List ℚ)) (t : ℚ) :
    (filtered_similarity_list inp emb t).Pairwise (fun a b => a.1 < b.1) :=
  (similarity_list_pairwise_fst inp emb).filter _

theorem sorted_filtered_pairwise (inp : List ℚ) (emb : List (List ℚ)) (t : ℚ) :
    (sortDesc (filtered_similarity_list inp emb t)).Pairwise pref :=
  sortDesc_pairwise (fun q hq => (mem_filtered_spec hq).2.1) (filtered_pairwise_fst inp emb t)

theorem mem_find_similar_items {inp : List ℚ} {emb : List (List ℚ)} {t : ℚ} {k : ℕ}
    {p : ℕ × Score} (hp : p ∈ find_similar_items inp emb t k) :
    p ∈ filtered_similarity_list inp emb t := by
  rw [find_similar_items] at hp
  exact (sortDesc_perm _).mem_iff.mp (List.take_subset k _ hp)

/-- C1: for every query vector, list of index embeddings, threshold and topK,
`find_similar_items` returns exactly `min topK (number of above-threshold
entries)` results — so the topK truncation is applied to the filtered, sorted
list, never before filtering — every returned score is `≥ threshold`, the
results are ordered descending by score, and every above-threshold entry that
was cut off by the truncation scores no better than every returned entry. -/
theorem C1_find_similar_items_contract (inp : List ℚ) (emb : List (List ℚ)) (t : ℚ) (k : ℕ) :
    (find_similar_items inp emb t k).length = min k (filtered_similarity_list inp emb t).length
    ∧ (∀ p ∈ find_similar_items inp emb t k, (t : ℝ) ≤ p.2.toReal)
    ∧ (find_similar_items inp emb t k).Pairwise (fun a b => b.2.toReal ≤ a.2.toReal)
    ∧ (∀ p ∈ filtered_similarity_list inp emb t, p ∉ find_similar_items inp emb t k →
        ∀ q ∈ find_similar_items inp emb t k, p.2.toReal ≤ q.2.toReal) := by
  have hpair := sorted_filtered_pairwise inp emb t
  refine ⟨?_, ?_, ?_, ?_⟩
  · rw [find_similar_items, List.length_take, (sortDesc_perm _).length_eq]
  · intro p hp
    have hspec := mem_filtered_spec (mem_find_similar_items hp)
    exact (scoreGE_iff p.2 t hspec.2.1).mp hspec.1
  · have hsub : (find_similar_items inp emb t k).Pairwise pref :=
      hpair.sublist (List.take_sublist k _)
    refine hsub.imp ?_
    intro a b hab
    rcases hab with h | h
    · exact h.le
    · exact le_of_eq h.1.symm
  · intro p hpF hpnot q hq
    have hpS : p ∈ sortDesc (filtered_similarity_list inp emb t) :=
      (sortDesc_perm _).mem_iff.mpr hpF
    have hsplit := List.take_append_drop k (sortDesc (filtered_similarity_list inp emb t))
    have hpdrop : p ∈ (sortDesc (filtered_similarity_list inp emb t)).drop k := by
      rcases List.mem_append.mp (by rw [hsplit]; exact hpS) with h | h
      · exact absurd h hpnot
      · exact h
    have happ := (List.pairwise_append.mp (by rw [← hsplit] at hpair; exact hpair)).2.2
    rcases happ q hq p hpdrop with h | h
    · exact h.le
    · exact le_of_eq h.1.symm

/-- C5: ties in the similarity score are broken by the original insertion
order of the index: whenever an entry `a` precedes an entry `b` in the query
result and their scores are equal, `a`'s original index (its position in the
embeddings list, which is insertion order) is smaller.  The result is a pure
function of the index and query, hence deterministic. -/
theorem C5_tie_break_stable (inp : List ℚ) (emb : List (List ℚ)) (t : ℚ) (k : ℕ) :
    (find_similar_items inp emb t k).Pairwise
      (fun a b => a.2.toReal = b.2.toReal → a.1 < b.1) := by
  have hpair := (sorted_filtered_pairwise inp emb t).sublist (List.take_sublist k _)
  refine hpair.imp ?_
  intro a b hab heq
  rcases hab with h | h
  · exact absurd h (by rw [heq]; exact lt_irrefl _)
  · exact h.2

/-- C10: every (index, score) pair returned by `find_similar_items` is
well-formed: the index is a valid position into the input embeddings list and
the score is the cosine similarity of the query with the embedding at that
index; querying an empty embeddings list returns the empty result. -/
theorem C10_result_wellformed (inp : List ℚ) (emb : List (List ℚ)) (t : ℚ) (k : ℕ) :
    (∀ p ∈ find_similar_items inp emb t k,
        ∃ h : p.1 < emb.length, p.2 = cosine_similarity_manual inp (emb.get ⟨p.1, h⟩))
    ∧ find_similar_items inp ([] : List (List ℚ)) t k = [] := by
  constructor
  · intro p hp
    exact (mem_filtered_spec (mem_find_similar_items hp)).2.2
  · rw [find_similar_items, filtered_similarity_list, similarity_list]
    simp [sortDesc]

/-- C2 counterexample: the claimed explicit guard does not exist.  On the
zero-norm first vector `[0]` (and any second vector, here `[1]`) the source
computes `0.0 / (0.0 * 1.0)`, i.e. produces the float NaN, instead of
excluding the pair up front. -/
theorem C2_counterexample :
    (cosine_similarity_manual [0] [1]).isNaN = true := by
  rw [Score.isNaN, cosine_similarity_manual]
  norm_num [normSq, dotProduct]

/-- C2 (amended): there is no guard — `cosine_similarity_manual` produces NaN
whenever either input has zero L2 norm — but such NaN scores never reach query
results, because the float comparison `sim >= threshold` is false for NaN, so
the threshold filter of `find_similar_items` drops them for every threshold. -/
theorem C2_amended_nan_filtered :
    (∀ v1 v2 : List ℚ, normSq v1 = 0 ∨ normSq v2 = 0 →
        (cosine_similarity_manual v1 v2).isNaN = true)
    ∧ (∀ (inp : List ℚ) (emb : List (List ℚ)) (t : ℚ) (k : ℕ),
        ∀ p ∈ find_similar_items inp emb t k, p.2.isNaN = false) := by
  constructor
  · intro v1 v2 h
    have hz : (cosine_similarity_manual v1 v2).denSq = 0 := by
      rw [cosine_similarity_manual]
      rcases h with h | h
      · simp [h]
      · simp [h]
    rw [Score.isNaN, hz]
    rfl
  · intro inp emb t k p hp
    have hspec := mem_filtered_spec (mem_find_similar_items hp)
    rw [Score.isNaN]
    exact beq_eq_false_iff_ne.mpr hspec.2.1.ne'

/-- Witness for C1 at a concrete query: the query `[1]` over the index
`[[1],[2]]` with threshold `1/2` and topK 1 returns `(0, 1/√1)`, whose score
is at least the threshold. -/
theorem C1_witness : (((1 : ℚ)/2 : ℚ) : ℝ) ≤ (Score.mk 1 1).toReal :=
  (C1_find_similar_items_contract [1] [[1], [2]] (1/2) 1).2.1 (0, Score.mk 1 1) (by
    norm_num [find_similar_items, filtered_similarity_list, similarity_list, sortDesc, insertDesc,
    scoreGE, scoreLT, cosine_similarity_manual, dotProduct, normSq, List.enum, List.enumFrom])

/-- Witness for C5 at a concrete query with a genuine tie: `1/√1 = 2/√4`, and
the query keeps index 0 before index 1. -/
theorem C5_witness : (0 : ℕ) < 1 := by
  have h := C5_tie_break_stable [1] [[1], [2]] 0 2
  have e : find_similar_items [1] [[1], [2]] 0 2 =
      [(0, Score.mk 1 1), (1, Score.mk 2 4)] := by
    norm_num [find_similar_items, filtered_similarity_list, similarity_list, sortDesc, insertDesc,
    scoreGE, scoreLT, cosine_similarity_manual, dotProduct, normSq, List.enum, List.enumFrom]
  rw [e] at h
  have h1 := (List.pairwise_cons.mp h).1 (1, Score.mk 2 4) (by simp)
  refine h1 ?_
  have h4 : ((Score.mk 2 4).denSq : ℝ) = 2 ^ 2 := by norm_num
  simp only [Score.toReal]
  rw [h4, Real.sqrt_sq (by norm_num)]
  norm_num

/-- Witness for C10 at a concrete query: the returned pair `(0, 1/√1)` indexes
position 0 of the singleton index, and its score is the cosine similarity with
that embedding. -/
theorem C10_witness :
    ∃ h : 0 < ([[(1 : ℚ)]] : List (List ℚ)).length,
      Score.mk 1 1 = cosine_similarity_manual [1] (([[(1 : ℚ)]] : List (List ℚ)).get ⟨0, h⟩) :=
  (C10_result_wellformed [1] [[1]] (1/2) 2).1 (0, Score.mk 1 1) (by
    norm_num [find_similar_items, filtered_similarity_list, similarity_list, sortDesc, insertDesc,
    scoreGE, scoreLT, cosine_similarity_manual, dotProduct, normSq, List.enum, List.enumFrom])

/-- Witness for C2 (amended) at a concrete zero-norm input. -/
theorem C2_witness : (cosine_similarity_manual [1] [0, 0]).isNaN = true :=
  C2_amended_nan_filtered.1 [1] [0, 0] (Or.inr (by norm_num [normSq]))

/-- A row of the styles dataframe, with the columns the pipeline reads
(`id`, `productDisplayName`, `articleType`, `gender`) and the `embeddings`
column added by `generate_embeddings`. -/
structure CatalogItem where
  id : ℕ
  productDisplayName : String
  articleType : String
  gender : String
  embedding : List ℚ
  deriving DecidableEq

/-- The items appended to `similar_items` for one description `desc`:
`get_embeddings([desc])` produces the single embedding of the description
(the oracle `embedFn`; numpy treats the resulting 1 x d array like the vector
itself), `find_similar_items` is called with `threshold=0.6` and the default
`top_k=2`, and `df_items.iloc[i]` selects the catalog row at the index
component of each returned (index, score) pair. -/
def items_for_description (embedFn : String → List ℚ) (df_items : List CatalogItem)
    (desc : String) : List CatalogItem :=
  (find_similar_items (embedFn desc) (df_items.map (fun it => it.embedding)) (3/5) 2).filterMap
    (fun p => df_items[p.1]?)

/-- Embeds `find_matching_items_with_rag(df_items, item_descs)`: iterates over the
descriptions, concatenating (`similar_items += ...`) the retrieved rows of
each description in order. -/
def find_matching_items_with_rag (embedFn : String → List ℚ) (df_items : List CatalogItem)
    (item_descs : List String) : List CatalogItem :=
  item_descs.flatMap (items_for_description embedFn df_items)

/-- A one-item catalog used to refute the deduplication claim. -/
def c3_item : CatalogItem :=
  ⟨0, "Turtle Check Men Navy Blue Shirt", "Shirts", "Men", [1]⟩

/-- C3 counterexample: with a catalog of a single item and two candidate
descriptions that both retrieve it, `find_matching_items_with_rag` returns the
item twice — it is not deduplicated by item identifier, contradicting the
claim that it appears exactly once. -/
theorem C3_counterexample :
    (find_matching_items_with_rag (fun _ => [1]) [c3_item] ["desc a", "desc b"]).count c3_item = 2
    ∧ (find_matching_items_with_rag (fun _ => [1]) [c3_item] ["desc a", "desc b"]).count c3_item
        ≠ 1 := by
  constructor
  · norm_num [find_matching_items_with_rag, items_for_description, c3_item,
      find_similar_items, filtered_similarity_list, similarity_list, sortDesc, insertDesc,
      scoreGE, scoreLT, cosine_similarity_manual, dotProduct, normSq, List.enum, List.enumFrom,
      List.filterMap_cons, List.filterMap_nil, List.getElem?_cons_zero,
      List.count_cons, List.count_nil, beq_iff_eq]
  · norm_num [find_matching_items_with_rag, items_for_description, c3_item,
      find_similar_items, filtered_similarity_list, similarity_list, sortDesc, insertDesc,
      scoreGE, scoreLT, cosine_similarity_manual, dotProduct, normSq, List.enum, List.enumFrom,
      List.filterMap_cons, List.filterMap_nil, List.getElem?_cons_zero,
      List.count_cons, List.count_nil, beq_iff_eq]

/-- C3 (amended): `find_matching_items_with_rag` performs no deduplication
across descriptions: the result is the in-order concatenation of the
per-description retrievals, so every item occurs once per description that
retrieved it (its total count is the sum of the per-description counts).
Deduplication happens only later, at image-path level, in the guardrail loop. -/
theorem C3_amended_no_dedup (embedFn : String → List ℚ) (df_items : List CatalogItem)
    (item_descs : List String) (x : CatalogItem) :
    (find_matching_items_with_rag embedFn df_items item_descs).count x =
      (item_descs.map (fun desc => (items_for_description embedFn df_items desc).count x)).sum := by
  rw [find_matching_items_with_rag, List.flatMap, List.count_flatten, List.map_map]
  rfl

/-- Embeds `batchify(iterable, n)`: yields the contiguous slices
`iterable[ndx : min(ndx+n, len)]` for `ndx = 0, n, 2n, ...` (source default
`n=1`; `embed_corpus` calls it with `batch_size=64`).  For `n = 0` Python's
`range(0, len, 0)` raises `ValueError`; that case is modelled as producing no
batches and is excluded by the `0 < batch_size` hypotheses below. -/
def batchify {α : Type} : List α → ℕ → List (List α)
  | [], _ => []
  | _ :: _, 0 => []
  | a :: rest, n + 1 => ((a :: rest).take (n + 1)) :: batchify ((a :: rest).drop (n + 1)) (n + 1)
  termination_by l _ => l.length
  decreasing_by
    simp only [List.drop_succ_cons, List.length_cons, List.length_drop]
    omega

/-- The `encoded_corpus` of `embed_corpus`: each text is tokenized
(`encoding.encode_batch`, the oracle `encode`) and truncated to its first
`max_context_len` tokens (`encoded_article[:max_context_len]`); no error is
raised on truncation. -/
def encode_corpus_trunc (encode : String → List ℕ) (corpus : List String)
    (max_context_len : ℕ) : List (List ℕ) :=
  corpus.map (fun article => (encode article).take max_context_len)

/-- Embeds `embed_corpus(corpus, batch_size=64, num_workers=8, max_context_len=8191)`:
tokenize and truncate, split into batches, submit one future per batch to a
`ThreadPoolExecutor(max_workers=num_workers)` in batch order, then collect
`future.result()` by iterating over the `futures` list — i.e. in submission
order.  `getEmb` is the (successful) `get_embeddings` batch call.
`completion_order` records the order in which `as_completed` yields the
futures; the source consumes it only to advance the progress bar
(`_progress`), never for assembling the output.  `num_workers` bounds the pool
and cannot affect the collected value. -/
def embed_corpus (getEmb : List (List ℕ) → List (List ℚ)) (encode : String → List ℕ)
    (corpus : List String) (batch_size num_workers max_context_len : ℕ)
    (completion_order : List ℕ) : List (List ℚ) :=
  let encoded_corpus := encode_corpus_trunc encode corpus max_context_len
  let futures := (batchify encoded_corpus batch_size).map getEmb
  let _pool_bound := num_workers
  let _progress := (completion_order.map (fun _ => batch_size)).sum
  futures.flatten

theorem batchify_flatten {α : Type} (n : ℕ) (l : List α) :
    (batchify l (n + 1)).flatten = l := by
  generalize hk : l.length = k
  induction k using Nat.strong_induction_on generalizing l with
  | _ k ih =>
      match l with
      | [] => simp [batchify]
      | a :: rest =>
          rw [batchify, List.flatten_cons]
          have hlen : ((a :: rest).drop (n + 1)).length < k := by
            subst hk
            simp only [List.drop_succ_cons, List.length_cons, List.length_drop]
            omega
          rw [ih _ hlen _ rfl]
          exact List.take_append_drop (n + 1) (a :: rest)

theorem mem_of_mem_batchify {α : Type} {l : List α} {n : ℕ} {batch : List α}
    (hb : batch ∈ batchify l n) {x : α} (hx : x ∈ batch) : x ∈ l := by
  match n with
  | 0 =>
      have hnil : batchify l 0 = [] := by cases l <;> simp [batchify]
      rw [hnil] at hb
      exact absurd hb (List.not_mem_nil batch)
  | m + 1 =>
      have h1 : x ∈ (batchify l (m + 1)).flatten := List.mem_flatten.mpr ⟨batch, hb, hx⟩
      rwa [batchify_flatten] at h1

/-- C4: for every corpus, batch size, worker count and completion order of the
concurrent batches, `embed_corpus` returns one embedding per input text,
aligned with the original input order: the output equals the per-item
embedding of each (truncated) text in corpus order, its length equals the
corpus length, and it is identical for any two completion orders.  The
hypothesis `hbatch` states that the embedding service maps a batch to the
embeddings of its items, in order. -/
theorem C4_embed_corpus_order (getEmb : List (List ℕ) → List (List ℚ))
    (encode : String → List ℕ) (f : List ℕ → List ℚ) (corpus : List String)
    (batch_size num_workers max_context_len : ℕ) (σ σ' : List ℕ)
    (hbs : 0 < batch_size) (hbatch : ∀ b, getEmb b = b.map f) :
    embed_corpus getEmb encode corpus batch_size num_workers max_context_len σ =
      corpus.map (fun a => f ((encode a).take max_context_len))
    ∧ (embed_corpus getEmb encode corpus batch_size num_workers max_context_len σ).length
        = corpus.length
    ∧ embed_corpus getEmb encode corpus batch_size num_workers max_context_len σ =
        embed_corpus getEmb encode corpus batch_size num_workers max_context_len σ' := by
  obtain ⟨m, rfl⟩ : ∃ m, batch_size = m + 1 := ⟨batch_size - 1, by omega⟩
  have hflat : ∀ L : List (List (List ℕ)), (L.map getEmb).flatten = L.flatten.map f := by
    intro L
    induction L with
    | nil => simp
    | cons b L ih => simp [hbatch, ih]
  have key : embed_corpus getEmb encode corpus (m + 1) num_workers max_context_len σ =
      corpus.map (fun a => f ((encode a).take max_context_len)) := by
    show ((batchify (encode_corpus_trunc encode corpus max_context_len) (m + 1)).map
        getEmb).flatten = _
    rw [hflat, batchify_flatten, encode_corpus_trunc, List.map_map]
    rfl
  refine ⟨key, ?_, rfl⟩
  rw [key, List.length_map]

/-- C9: every encoded corpus item is truncated to at most `max_context_len`
tokens (default 8191 in the source) by keeping the token prefix of the full
tokenization — exactly the budget length whenever the text exceeds the
budget — and consequently no batch handed to the embedding call contains an
item with more than `max_context_len` tokens. -/
theorem C9_truncation (encode : String → List ℕ) (corpus : List String)
    (max_context_len : ℕ) :
    (∀ item ∈ encode_corpus_trunc encode corpus max_context_len,
        item.length ≤ max_context_len
        ∧ ∃ s ∈ corpus, item = (encode s).take max_context_len
            ∧ (max_context_len ≤ (encode s).length → item.length = max_context_len))
    ∧ ∀ batch_size : ℕ,
        ∀ batch ∈ batchify (encode_corpus_trunc encode corpus max_context_len) batch_size,
          ∀ item ∈ batch, item.length ≤ max_context_len := by
  have hmain : ∀ item ∈ encode_corpus_trunc encode corpus max_context_len,
      item.length ≤ max_context_len
      ∧ ∃ s ∈ corpus, item = (encode s).take max_context_len
          ∧ (max_context_len ≤ (encode s).length → item.length = max_context_len) := by
    intro item hitem
    rw [encode_corpus_trunc, List.mem_map] at hitem
    obtain ⟨s, hs, rfl⟩ := hitem
    refine ⟨?_, s, hs, rfl, ?_⟩
    · rw [List.length_take]
      exact min_le_left _ _
    · intro hle
      rw [List.length_take]
      exact min_eq_left hle
  refine ⟨hmain, ?_⟩
  intro batch_size batch hb item hitem
  exact (hmain item (mem_of_mem_batchify hb hitem)).1

/-- Witness for C4 at a concrete corpus with batch size 1: two different
completion orders of the two batch futures yield the same output. -/
theorem C4_witness :
    embed_corpus (fun b => b.map (fun ts => ts.map (fun t => (t : ℚ))))
        (fun s => List.replicate s.length 7) ["ab", "c"] 1 8 8191 [1, 0] =
      embed_corpus (fun b => b.map (fun ts => ts.map (fun t => (t : ℚ))))
        (fun s => List.replicate s.length 7) ["ab", "c"] 1 8 8191 [0, 1] :=
  (C4_embed_corpus_order _ _ (fun ts => ts.map (fun t => (t : ℚ))) ["ab", "c"] 1 8 8191
    [1, 0] [0, 1] (by norm_num) (fun b => rfl)).2.2

/-- Witness for C9 at a concrete text whose 5 tokens exceed the budget 3: the
encoded item is the 3-token prefix. -/
theorem C9_witness :
    ([1, 2, 3] : List ℕ).length ≤ 3
    ∧ ∃ s ∈ ["sweater"], ([1, 2, 3] : List ℕ) =
        ((fun _ : String => [1, 2, 3, 4, 5]) s).take 3
        ∧ (3 ≤ ((fun _ : String => [1, 2, 3, 4, 5]) s).length →
            ([1, 2, 3] : List ℕ).length = 3) :=
  (C9_truncation (fun _ => [1, 2, 3, 4, 5]) ["sweater"] 3).1 [1, 2, 3] (by
    norm_num [encode_corpus_trunc])

/-- The three configuration constants of the decorator
`@retry(wait=wait_random_exponential(min=1, max=40), stop=stop_after_attempt(10))`
on `get_embeddings`: minimum wait. -/
def retry_wait_min : ℚ := 1

/-- Maximum wait of the retry decorator on `get_embeddings`. -/
def retry_wait_max : ℚ := 40

/-- Attempt cap of the retry decorator on `get_embeddings`
(`stop_after_attempt(10)`). -/
def retry_max_attempts : ℕ := 10

/-- Modelled from the spec: the `tenacity` library implementing the retry
decorator is not part of this repository's sources; the spec describes its
policy as "exponential backoff with randomized jitter, initial wait ≥1 time
unit, maximum wait ≤40 time units".  The wait before retrying after attempt
`n` is the jittered exponential `jitter n * 2^(n-1)` clamped into
`[retry_wait_min, retry_wait_max]`. -/
def backoff_wait (jitter : ℕ → ℚ) (n : ℕ) : ℚ :=
  max retry_wait_min (min (jitter n * 2 ^ (n - 1)) retry_wait_max)

/-- Modelled from the spec: the retry loop of the decorator, "hard cap of 10
attempts; if all attempts fail, propagate".  `attempt i` is the outcome of the
i-th call of the wrapped body (`none` = raised), `i` the number of the next
attempt, `remaining` how many attempts are still allowed. -/
def retry_from {α : Type} (attempt : ℕ → Option α) : ℕ → ℕ → Option α
  | _, 0 => none
  | i, r + 1 =>
    match attempt i with
    | some v => some v
    | none => retry_from attempt (i + 1) r

/-- Embeds `get_embeddings` as seen by callers: the retry-decorated embedding call,
starting at attempt 1 with `retry_max_attempts` attempts allowed. -/
def get_embeddings {α : Type} (attempt : ℕ → Option α) : Option α :=
  retry_from attempt 1 retry_max_attempts

theorem retry_from_none {α : Type} (attempt : ℕ → Option α) :
    ∀ r i, (∀ j, i ≤ j → j < i + r → attempt j = none) → retry_from attempt i r = none := by
  intro r
  induction r with
  | zero => intro i _; rfl
  | succ r ih =>
      intro i hfail
      rw [retry_from, hfail i le_rfl (by omega)]
      exact ih (i + 1) (fun j h1 h2 => hfail j (by omega) (by omega))

theorem retry_from_some {α : Type} (attempt : ℕ → Option α) :
    ∀ r i v, retry_from attempt i r = some v →
      ∃ j, i ≤ j ∧ j < i + r ∧ attempt j = some v := by
  intro r
  induction r with
  | zero => intro i v h; exact absurd h (by rw [retry_from]; simp)
  | succ r ih =>
      intro i v h
      rw [retry_from] at h
      cases hv : attempt i with
      | some w =>
          rw [hv] at h
          exact ⟨i, le_rfl, by omega, by rw [hv, ← h]⟩
      | none =>
          rw [hv] at h
          obtain ⟨j, h1, h2, h3⟩ := ih (i + 1) v h
          exact ⟨j, by omega, by omega, h3⟩

/-- C6: the retry policy of `get_embeddings`.  Every backoff wait lies between
1 and 40 time units whatever the jitter; if attempts 1 through 10 all fail the
call returns the failure to the caller; and a successful call is the result of
one of the at most 10 attempts (the hard cap). -/
theorem C6_retry_policy {α : Type} (attempt : ℕ → Option α) (jitter : ℕ → ℚ) :
    (∀ n, 1 ≤ backoff_wait jitter n ∧ backoff_wait jitter n ≤ 40)
    ∧ ((∀ i, 1 ≤ i → i ≤ 10 → attempt i = none) → get_embeddings attempt = none)
    ∧ (∀ v, get_embeddings attempt = some v →
        ∃ i, 1 ≤ i ∧ i ≤ 10 ∧ attempt i = some v) := by
  refine ⟨?_, ?_, ?_⟩
  · intro n
    constructor
    · exact le_max_left _ _
    · rw [backoff_wait]
      refine max_le (by norm_num [retry_wait_min, retry_wait_max]) ?_
      exact le_trans (min_le_right _ _) le_rfl
  · intro hfail
    exact retry_from_none attempt retry_max_attempts 1
      (fun j h1 h2 => hfail j h1 (by
        rw [retry_max_attempts] at h2
        omega))
  · intro v h
    obtain ⟨j, h1, h2, h3⟩ := retry_from_some attempt retry_max_attempts 1 v h
    exact ⟨j, h1, by rw [retry_max_attempts] at h2; omega, h3⟩

/-- Witness for C6: an embedding call that fails on the first two attempts and
succeeds on the third returns the third attempt's value within the cap. -/
theorem C6_witness :
    ∃ i, 1 ≤ i ∧ i ≤ 10 ∧
      (fun n => if n = 3 then some 42 else (none : Option ℕ)) i = some 42 :=
  (C6_retry_policy (fun n => if n = 3 then some 42 else none) (fun _ => 1)).2.2 42 (by
    norm_num [get_embeddings, retry_max_attempts, retry_from])

/-- The parsed response of one `check_match` verification call
(`json.loads(check_match(...))`): the `answer` and `reason` fields. -/
structure MatchResponse where
  answer : String
  reason : String
  deriving DecidableEq

/-- The guardrail loop over the deduplicated candidate image paths
(`paths = list(set(paths))`): for each path, call the verification model once
(`checkFn`, composing `encode_image_to_base64`, `check_match` and
`json.loads`) and keep (display) the path with the model's reason exactly when
`match["answer"] == 'yes'`. -/
def guardrail_loop (checkFn : String → MatchResponse) (paths : List String) :
    List (String × String) :=
  paths.filterMap (fun path =>
    if (checkFn path).answer = "yes" then some (path, (checkFn path).reason) else none)

theorem mem_guardrail_loop {checkFn : String → MatchResponse} {paths : List String}
    {p r : String} :
    (p, r) ∈ guardrail_loop checkFn paths ↔
      p ∈ paths ∧ (checkFn p).answer = "yes" ∧ r = (checkFn p).reason := by
  rw [guardrail_loop, List.mem_filterMap]
  constructor
  · rintro ⟨a, ha, hsome⟩
    by_cases hyes : (checkFn a).answer = "yes"
    · rw [if_pos hyes] at hsome
      obtain ⟨rfl, rfl⟩ : a = p ∧ (checkFn a).reason = r := by
        constructor <;> [exact congrArg Prod.fst (Option.some_injective _ hsome);
          exact congrArg Prod.snd (Option.some_injective _ hsome)]
      exact ⟨ha, hyes, rfl⟩
    · rw [if_neg hyes] at hsome
      exact absurd hsome (by simp)
  · rintro ⟨hp, hyes, rfl⟩
    exact ⟨p, hp, by rw [if_pos hyes]⟩

theorem guardrail_loop_count {checkFn : String → MatchResponse} {paths : List String}
    {p : String} (hnodup : paths.Nodup) (hp : p ∈ paths)
    (hyes : (checkFn p).answer = "yes") :
    (guardrail_loop checkFn paths).count (p, (checkFn p).reason) = 1 := by
  induction paths with
  | nil => exact absurd hp (List.not_mem_nil p)
  | cons q rest ih =>
      rw [List.nodup_cons] at hnodup
      by_cases hq : q = p
      · subst hq
        rw [guardrail_loop, List.filterMap_cons, if_pos hyes]
        rw [List.count_cons_self]
        have hzero : ((guardrail_loop checkFn rest).count (q, (checkFn q).reason)) = 0 := by
          rw [List.count_eq_zero]
          intro hmem
          exact hnodup.1 (mem_guardrail_loop.mp hmem).1
        rw [guardrail_loop] at hzero
        rw [hzero]
      · have hp' : p ∈ rest := by
          rcases List.mem_cons.mp hp with h | h
          · exact absurd h.symm hq
          · exact h
        rw [guardrail_loop, List.filterMap_cons]
        by_cases hqyes : (checkFn q).answer = "yes"
        · rw [if_pos hqyes, List.count_cons_of_ne (by
            intro hcontra
            exact hq (congrArg Prod.fst hcontra).symm)]
          exact ih hnodup.2 hp'
        · rw [if_neg hqyes]
          exact ih hnodup.2 hp'

/-- C7: in the guardrail loop the candidate paths are deduplicated before
verification (`uniquePaths` is duplicate-free and has exactly the paths of the
raw candidate list, so each unique candidate is checked exactly once); a
candidate whose verdict is not affirmative never appears in the final output;
and a candidate whose verdict is "yes" appears exactly once in the output even
if it was reached via multiple descriptions (i.e. occurs several times in the
raw path list). -/
theorem C7_guardrail_dedup (checkFn : String → MatchResponse)
    (paths uniquePaths : List String) (hnodup : uniquePaths.Nodup)
    (hset : ∀ p, p ∈ uniquePaths ↔ p ∈ paths) :
    ∀ p ∈ paths,
      uniquePaths.count p = 1
      ∧ ((checkFn p).answer ≠ "yes" →
          ∀ r, (p, r) ∉ guardrail_loop checkFn uniquePaths)
      ∧ ((checkFn p).answer = "yes" →
          (guardrail_loop checkFn uniquePaths).count (p, (checkFn p).reason) = 1) := by
  intro p hp
  have hpu : p ∈ uniquePaths := (hset p).mpr hp
  refine ⟨?_, ?_, ?_⟩
  · exact List.count_eq_one_of_mem hnodup hpu
  · intro hno r hmem
    exact hno (mem_guardrail_loop.mp hmem).2.1
  · intro hyes
    exact guardrail_loop_count hnodup hpu hyes

/-- Witness for C7: the raw candidate list reaches path "7143.jpg" twice, the
deduplicated list once; the affirmative candidate appears exactly once in the
output. -/
theorem C7_witness :
    (["7143.jpg"] : List String).count "7143.jpg" = 1
    ∧ (guardrail_loop (fun _ => MatchResponse.mk "yes" "matches well")
        ["7143.jpg"]).count ("7143.jpg", "matches well") = 1 := by
  have h := C7_guardrail_dedup (fun _ => MatchResponse.mk "yes" "matches well")
    ["7143.jpg", "7143.jpg"] ["7143.jpg"] (by simp) (fun p => by simp) "7143.jpg" (by simp)
  exact ⟨h.1, h.2.2 rfl⟩

/-- C8 counterexample: a verification response whose verdict is neither "yes"
nor "no" — here "maybe" — is not surfaced as a parse error: the loop treats it
exactly like "no" (the candidate is silently dropped, identical output). -/
theorem C8_counterexample :
    guardrail_loop (fun _ => MatchResponse.mk "maybe" "unsure") ["2133.jpg"] = []
    ∧ guardrail_loop (fun _ => MatchResponse.mk "maybe" "unsure") ["2133.jpg"] =
        guardrail_loop (fun _ => MatchResponse.mk "no" "unsure") ["2133.jpg"] := by
  constructor
  · simp [guardrail_loop]
  · simp [guardrail_loop]

/-- C8 (amended): the guardrail loop checks only `answer == 'yes'`; every
other verdict value — including values outside the contract set
{"yes", "no"} — is silently classified as a non-match, with no distinct
parse-error outcome: collapsing every non-"yes" verdict to "no" leaves the
output unchanged. -/
theorem C8_amended_binary_on_yes (checkFn : String → MatchResponse) (paths : List String) :
    guardrail_loop checkFn paths =
      guardrail_loop (fun p =>
        if (checkFn p).answer = "yes" then checkFn p
        else MatchResponse.mk "no" (checkFn p).reason) paths := by
  have hfun : ∀ path : String,
      (if (checkFn path).answer = "yes" then some (path, (checkFn path).reason) else none) =
      (if (if (checkFn path).answer = "yes" then checkFn path
            else MatchResponse.mk "no" (checkFn path).reason).answer = "yes" then
        some (path, (if (checkFn path).answer = "yes" then checkFn path
            else MatchResponse.mk "no" (checkFn path).reason).reason)
      else none) := by
    intro path
    by_cases hyes : (checkFn path).answer = "yes"
    · simp only [if_pos hyes]
    · simp only [if_neg hyes]
      rw [if_neg (by simp : ¬(MatchResponse.mk "no" (checkFn path).reason).answer = "yes")]
  rw [guardrail_loop, guardrail_loop]
  induction paths with
  | nil => rfl
  | cons q rest ih =>
      rw [List.filterMap_cons, List.filterMap_cons, hfun q, ih]

end OutfitRag
